import Mathlib

/-!
# CINN: the optimisation pipeline of `cinn/optim/optimize.cc`

`Expr` in CINN is a shared handle to a heap-allocated IR node and every pass has the
signature `void Pass(Expr* e, ...)`: it may rebind the handle and mutate the nodes behind
it.  The embedding therefore threads an explicit heap of IR nodes: a pass is a function on
the pair (the local variable `copied`, the heap).  The passes themselves, `IRCopy`, the
`Target` descriptor and the IR node classes are declared in headers that are not part of
the sources at hand; the passes are parameters of the development.
-/

namespace cinn

/-- A heap address. -/
abbrev Loc := Nat

/-- An IR node: its kind and scalar payload (`info`) and the handles of its operands. -/
structure IrNode where
  info : Nat
  operands : List Loc
deriving DecidableEq, Repr

/-- The heap of IR nodes; a location is allocated when it is below `cells.length`. -/
structure Heap where
  cells : List IrNode
deriving DecidableEq, Repr

/-- The handle class `ir::Expr`: a possibly null pointer to an IR node. -/
structure Expr where
  ptr : Option Loc
deriving DecidableEq, Repr

/-- The method `Expr::defined()`: the handle is not null. -/
def Expr.defined (e : Expr) : Bool := e.ptr.isSome

/-- The handle class `ir::Module`: a pointer to a module node. -/
structure Module where
  ptr : Option Loc
deriving DecidableEq, Repr

/-- The conversion `Expr(module)`: the same pointer, seen as an expression handle. -/
def Expr.ofModule (m : Module) : Expr := ⟨m.ptr⟩

/-- Architecture class of a target. -/
inductive ArchClass where
  | Unknown
  | GeneralPurpose
  | Accelerator
deriving DecidableEq, Repr

/-- Modelled from the spec: the target descriptor of `cinn/common/target.h` (absent from the
sources): "architecture class (general-purpose vs accelerator), vector width". -/
structure Target where
  arch : ArchClass
  vector_width : Nat
deriving DecidableEq, Repr

/-- The default-constructed descriptor `Target()`: nothing is known about the target. -/
def Target.ctor : Target := ⟨ArchClass.Unknown, 0⟩

/-- The state a pass works on: the local variable `copied` and the heap. -/
structure St where
  copied : Expr
  heap : Heap
deriving DecidableEq, Repr

/-- A pass `void Pass(Expr* e)`, applied to `&copied`. -/
abbrev Pass := St → St

/-- The functions `optimize.cc` calls and that are defined elsewhere in the repository. -/
structure Passes where
  IRCopy : Expr → Heap → St
  FoldCINNCallArguments : Pass
  TransformPolyForToFor : Pass
  ReplaceConstParamToInteger : Pass
  CastSimplify : Pass
  Simplify : Pass
  UnrollLoop : Pass
  VectorizeLoops : Target → Pass
  SetCudaAxisInfo : Pass
  RemoveGpuForloopsAxis : Pass
  CudaSyncThreadsDropIfThenElse : Pass
  RemoveNestedBlock : Pass
  MapExternCall : Target → Pass
  ExternCallMultiOutputShallowStore : Pass
  IfSimplify : Pass
  InsertDebugLogCallee : Pass
  RemoveScheduleBlock : Pass
  LowerFunctionCallBindVars : Pass
  CallArgListToPodValue : Pass
  LowerIntrin : Target → Pass
  as_lowered_func : St → Bool
  as_module_ref : St → Module

/-- The compile-time switch `CINN_WITH_CUDA` and the runtime flag `FLAGS_cinn_ir_schedule`. -/
structure Config where
  CINN_WITH_CUDA : Bool
  FLAGS_cinn_ir_schedule : Bool
deriving DecidableEq, Repr

namespace optim

/-- The function `Expr Optimize(Expr e, Target target, bool runtime_debug_info,
bool remove_gpu_for_loops)` of optimize.cc, lines 45-92.  `none` is the fatal
`CHECK(e.defined())`. -/
def Optimize (P : Passes) (cfg : Config) (e : Expr) (target : Target)
    (runtime_debug_info remove_gpu_for_loops : Bool) (h : Heap) : Option St :=
  if e.defined = false then none
  else
    let copied := P.IRCopy e h
    let copied := P.FoldCINNCallArguments copied
    let copied := P.TransformPolyForToFor copied
    let copied := P.ReplaceConstParamToInteger copied
    let copied := P.CastSimplify copied
    let copied := P.Simplify copied
    let copied := P.UnrollLoop copied
    let copied := P.VectorizeLoops target copied
    let copied :=
      if cfg.CINN_WITH_CUDA then
        let copied :=
          if cfg.FLAGS_cinn_ir_schedule && P.as_lowered_func copied then
            P.SetCudaAxisInfo copied
          else copied
        let copied :=
          if remove_gpu_for_loops then P.RemoveGpuForloopsAxis copied else copied
        P.CudaSyncThreadsDropIfThenElse copied
      else copied
    let copied := P.RemoveNestedBlock copied
    let copied := P.MapExternCall target copied
    let copied := P.ExternCallMultiOutputShallowStore copied
    let copied := P.CastSimplify copied
    let copied := P.Simplify copied
    let copied := P.IfSimplify copied
    let copied := if runtime_debug_info then P.InsertDebugLogCallee copied else copied
    some copied

/-- The function `ir::Module Optimize(const ir::Module& module, const Target& target)` of
optimize.cc, lines 94-111.  The result is the returned module handle and the heap. -/
def Optimize_Module (P : Passes) (cfg : Config) (module : Module) (target : Target)
    (h : Heap) : Module × Heap :=
  let copied := P.IRCopy (Expr.ofModule module) h
  let copied :=
    if cfg.FLAGS_cinn_ir_schedule then
      let copied := P.UnrollLoop copied
      P.VectorizeLoops Target.ctor copied
    else copied
  let copied := P.RemoveScheduleBlock copied
  let copied := P.LowerFunctionCallBindVars copied
  let copied := P.CallArgListToPodValue copied
  let copied := P.LowerIntrin target copied
  (P.as_module_ref copied, copied.heap)

end optim

/-! ## The pipelines as the specification words them -/

/-- The named steps of the specification's pipelines. -/
inductive Step where
  | FoldCINNCallArguments
  | TransformPolyForToFor
  | ReplaceConstParamToInteger
  | CastSimplify
  | Simplify
  | UnrollLoop
  | VectorizeLoops
  | RemoveNestedBlock
  | MapExternCall
  | ExternCallMultiOutputShallowStore
  | IfSimplify
  | RemoveScheduleBlock
  | LowerFunctionCallBindVars
  | CallArgListToPodValue
  | LowerIntrin
deriving DecidableEq, Repr

/-- One step: `vt` is the target vectorization is sized by, `t` the target of the
target-specific mappings. -/
def Step.run (P : Passes) (vt t : Target) : Step → Pass
  | .FoldCINNCallArguments => P.FoldCINNCallArguments
  | .TransformPolyForToFor => P.TransformPolyForToFor
  | .ReplaceConstParamToInteger => P.ReplaceConstParamToInteger
  | .CastSimplify => P.CastSimplify
  | .Simplify => P.Simplify
  | .UnrollLoop => P.UnrollLoop
  | .VectorizeLoops => P.VectorizeLoops vt
  | .RemoveNestedBlock => P.RemoveNestedBlock
  | .MapExternCall => P.MapExternCall t
  | .ExternCallMultiOutputShallowStore => P.ExternCallMultiOutputShallowStore
  | .IfSimplify => P.IfSimplify
  | .RemoveScheduleBlock => P.RemoveScheduleBlock
  | .LowerFunctionCallBindVars => P.LowerFunctionCallBindVars
  | .CallArgListToPodValue => P.CallArgListToPodValue
  | .LowerIntrin => P.LowerIntrin t

/-- Steps applied one after the other, the head of the list first. -/
def runSteps (P : Passes) (vt t : Target) (steps : List Step) (s : St) : St :=
  steps.foldl (fun acc st => st.run P vt t acc) s

/-- The specification's expression-level order for a build without accelerator support and
without debug instrumentation: steps 1-7 and 9-13 of its list. -/
def specExprSteps : List Step :=
  [.FoldCINNCallArguments, .TransformPolyForToFor, .ReplaceConstParamToInteger,
   .CastSimplify, .Simplify, .UnrollLoop, .VectorizeLoops, .RemoveNestedBlock,
   .MapExternCall, .ExternCallMultiOutputShallowStore, .CastSimplify, .Simplify,
   .IfSimplify]

/-- The specification's module-level order: unroll and vectorize under the schedule-IR
flag, then the four steps that always run. -/
def specModuleSteps (schedule_ir : Bool) : List Step :=
  (if schedule_ir then [.UnrollLoop, .VectorizeLoops] else []) ++
  [.RemoveScheduleBlock, .LowerFunctionCallBindVars, .CallArgListToPodValue, .LowerIntrin]

/-- The expression-level steps up to and including the binding of loop axes. -/
def exprFront (P : Passes) (cfg : Config) (target : Target) (s : St) : St :=
  let s := runSteps P target target
    [.FoldCINNCallArguments, .TransformPolyForToFor, .ReplaceConstParamToInteger,
     .CastSimplify, .Simplify, .UnrollLoop, .VectorizeLoops] s
  if cfg.FLAGS_cinn_ir_schedule && P.as_lowered_func s then P.SetCudaAxisInfo s else s

/-- The expression-level steps from barrier insertion to the end. -/
def exprBack (P : Passes) (target : Target) (runtime_debug_info : Bool) (s : St) : St :=
  let s := P.CudaSyncThreadsDropIfThenElse s
  let s := runSteps P target target
    [.RemoveNestedBlock, .MapExternCall, .ExternCallMultiOutputShallowStore,
     .CastSimplify, .Simplify, .IfSimplify] s
  if runtime_debug_info then P.InsertDebugLogCallee s else s

/-- The pass family in which the three accelerator passes do nothing. -/
def Passes.withoutAccelerator (P : Passes) : Passes :=
  { P with SetCudaAxisInfo := id, RemoveGpuForloopsAxis := id,
           CudaSyncThreadsDropIfThenElse := id }

/-- The pass family in which debug instrumentation does nothing. -/
def Passes.withoutDebug (P : Passes) : Passes :=
  { P with InsertDebugLogCallee := id }

/-- The pass family in which unrolling and vectorization do nothing. -/
def Passes.withoutUnrollVectorize (P : Passes) : Passes :=
  { P with UnrollLoop := id, VectorizeLoops := fun _ => id }

/-! ## Reachability and the frame discipline of passes -/

/-- The node at `l` is reached from the node at the first location through operands. -/
inductive Reach (h : Heap) : Loc → Loc → Prop where
  | refl (l : Loc) : Reach h l l
  | step {l m n : Loc} (node : IrNode) :
      h.cells[l]? = some node → m ∈ node.operands → Reach h m n → Reach h l n

/-- The node at `l` belongs to the tree behind the handle `e`. -/
def Reachable (h : Heap) (e : Expr) (l : Loc) : Prop :=
  ∃ r, e.ptr = some r ∧ Reach h r l

/-- A pass keeps to the tree it is given: the heap only grows, every allocated node
outside the tree behind its argument is left as it was, and the tree behind the handle it
leaves consists of nodes of the old tree and of newly allocated ones. -/
def Pass.Frame (p : Pass) : Prop :=
  ∀ s : St,
    s.heap.cells.length ≤ (p s).heap.cells.length ∧
    (∀ l, l < s.heap.cells.length → ¬ Reachable s.heap s.copied l →
      (p s).heap.cells[l]? = s.heap.cells[l]?) ∧
    (∀ l, Reachable (p s).heap (p s).copied l →
      Reachable s.heap s.copied l ∨ s.heap.cells.length ≤ l)

/-- A copy is deep: the nodes that existed are left as they were and the tree behind the
returned handle consists of newly allocated nodes only. -/
def DeepCopy (copy : Expr → Heap → St) : Prop :=
  ∀ (e : Expr) (h : Heap),
    h.cells.length ≤ (copy e h).heap.cells.length ∧
    (∀ l, l < h.cells.length → (copy e h).heap.cells[l]? = h.cells[l]?) ∧
    (∀ l, Reachable (copy e h).heap (copy e h).copied l → h.cells.length ≤ l)

/-- Every pass of the family keeps to the tree it is given and `IRCopy` is deep. -/
structure Passes.Disciplined (P : Passes) : Prop where
  IRCopy : DeepCopy P.IRCopy
  FoldCINNCallArguments : Pass.Frame P.FoldCINNCallArguments
  TransformPolyForToFor : Pass.Frame P.TransformPolyForToFor
  ReplaceConstParamToInteger : Pass.Frame P.ReplaceConstParamToInteger
  CastSimplify : Pass.Frame P.CastSimplify
  Simplify : Pass.Frame P.Simplify
  UnrollLoop : Pass.Frame P.UnrollLoop
  VectorizeLoops : ∀ t, Pass.Frame (P.VectorizeLoops t)
  SetCudaAxisInfo : Pass.Frame P.SetCudaAxisInfo
  RemoveGpuForloopsAxis : Pass.Frame P.RemoveGpuForloopsAxis
  CudaSyncThreadsDropIfThenElse : Pass.Frame P.CudaSyncThreadsDropIfThenElse
  RemoveNestedBlock : Pass.Frame P.RemoveNestedBlock
  MapExternCall : ∀ t, Pass.Frame (P.MapExternCall t)
  ExternCallMultiOutputShallowStore : Pass.Frame P.ExternCallMultiOutputShallowStore
  IfSimplify : Pass.Frame P.IfSimplify
  InsertDebugLogCallee : Pass.Frame P.InsertDebugLogCallee
  RemoveScheduleBlock : Pass.Frame P.RemoveScheduleBlock
  LowerFunctionCallBindVars : Pass.Frame P.LowerFunctionCallBindVars
  CallArgListToPodValue : Pass.Frame P.CallArgListToPodValue
  LowerIntrin : ∀ t, Pass.Frame (P.LowerIntrin t)

/-- The tree behind a location, read off the heap down to a depth. -/
inductive Tree where
  | cut : Tree
  | node (info : Nat) (kids : List Tree) : Tree

/-- Reads the tree behind `l` down to depth `fuel`; `cut` stands for what lies deeper and
for a pointer to no node. -/
def readTree (h : Heap) : Nat → Loc → Tree
  | 0, _ => Tree.cut
  | fuel + 1, l =>
    match h.cells[l]? with
    | none => Tree.cut
    | some n => Tree.node n.info (n.operands.map (readTree h fuel))

/-- The nodes allocated in `h` are the same in `h'`. -/
def SameBelow (h h' : Heap) : Prop :=
  ∀ l, l < h.cells.length → h'.cells[l]? = h.cells[l]?

/-- The tree behind the pointer reads the same in `h'` as in `h`, to every depth. -/
def SameTree (h h' : Heap) (p : Option Loc) : Prop :=
  ∀ r, p = some r → ∀ fuel, readTree h' fuel r = readTree h fuel r

/-- Every node of the tree behind `e` is allocated: the tree has no dangling handle. -/
def Allocated (h : Heap) (e : Expr) : Prop :=
  ∀ l, Reachable h e l → l < h.cells.length

/-- No node of the heap has a dangling operand. -/
def Heap.Closed (h : Heap) : Prop :=
  ∀ n ∈ h.cells, ∀ m ∈ n.operands, m < h.cells.length

instance (h : Heap) : Decidable h.Closed := by
  unfold Heap.Closed; infer_instance

/-- The invariant of the pipelines: relative to the heap `h0` at the call, the nodes of `h0`
are as they were and the tree behind `copied` lies in storage allocated since. -/
def Kept (h0 : Heap) (s : St) : Prop :=
  h0.cells.length ≤ s.heap.cells.length ∧
  SameBelow h0 s.heap ∧
  (∀ l, Reachable s.heap s.copied l → h0.cells.length ≤ l)

/-! ## A concrete pass family -/

/-- Moves every operand handle of a node by `k`. -/
def IrNode.shift (k : Nat) (n : IrNode) : IrNode :=
  { n with operands := n.operands.map (· + k) }

/-- A deep copy: every node is duplicated into fresh storage and the duplicate of the node
at `l` is at `l + h.cells.length`. -/
def cloneAll (e : Expr) (h : Heap) : St :=
  { copied := ⟨e.ptr.map (· + h.cells.length)⟩,
    heap := ⟨h.cells ++ h.cells.map (IrNode.shift h.cells.length)⟩ }

/-- A pass that rewrites, in place, the payload of the node its argument points to. -/
def mapRoot (f : Nat → Nat) : Pass := fun s =>
  match s.copied.ptr with
  | none => s
  | some r =>
    match s.heap.cells[r]? with
    | none => s
    | some n => { s with heap := ⟨s.heap.cells.set r { n with info := f n.info }⟩ }

/-- A concrete family: a deep copy and passes that each leave a distinct mark on the root
of the tree they are given. -/
def demoPasses : Passes where
  IRCopy := cloneAll
  FoldCINNCallArguments := mapRoot (fun i => 10 * i + 1)
  TransformPolyForToFor := mapRoot (fun i => 10 * i + 2)
  ReplaceConstParamToInteger := mapRoot (fun i => 10 * i + 3)
  CastSimplify := mapRoot (fun i => 10 * i + 4)
  Simplify := mapRoot (fun i => 10 * i + 5)
  UnrollLoop := mapRoot (fun i => 10 * i + 6)
  VectorizeLoops := fun t => mapRoot (fun i => 100 * i + t.vector_width)
  SetCudaAxisInfo := mapRoot (fun i => 10 * i + 7)
  RemoveGpuForloopsAxis := mapRoot (fun i => 10 * i + 8)
  CudaSyncThreadsDropIfThenElse := mapRoot (fun i => 10 * i + 9)
  RemoveNestedBlock := id
  MapExternCall := fun _ => id
  ExternCallMultiOutputShallowStore := id
  IfSimplify := id
  InsertDebugLogCallee := mapRoot (fun i => 10 * i)
  RemoveScheduleBlock := id
  LowerFunctionCallBindVars := id
  CallArgListToPodValue := id
  LowerIntrin := fun _ => id
  as_lowered_func := fun _ => true
  as_module_ref := fun s => ⟨s.copied.ptr⟩

/-- A heap holding the tree `0 -> [1, 2]`. -/
def demoHeap : Heap := ⟨[⟨1, [1, 2]⟩, ⟨0, []⟩, ⟨0, []⟩]⟩

/-- A general-purpose target with eight vector lanes. -/
def hostTarget : Target := ⟨ArchClass.GeneralPurpose, 8⟩

/-! ## The code generator of `cinn/backends/llvm`

Only the tests of the code generator are among the sources at hand; the visitor itself
(`CodeGenLLVM::Visit`) is not.  It is modelled here from the specification, for immediates,
binary and comparison nodes and for the memory operations.  Integer constants are
mathematical integers kept in the range of their type by an explicit reduction modulo
`2 ^ bits`; a finite floating value is the rational it denotes and the rounding of the
format is a parameter.
-/

namespace backends

/-- Modelled from the spec: the kinds of a `ScalarType`, "signed-int | unsigned-int | float |
boolean" (`cinn/common/type.h` is absent). -/
inductive TypeKind where
  | Int
  | UInt
  | Float
  | Bool
deriving DecidableEq, Repr

/-- Modelled from the spec: "ScalarType: {kind, bit-width, lane-count}" (`common::Type`,
absent). -/
structure ScalarType where
  kind : TypeKind
  bits : Nat
  lanes : Nat
deriving DecidableEq, Repr

/-- The type `common::Int(bits)`. -/
def ScalarType.int (bits : Nat) : ScalarType := ⟨TypeKind.Int, bits, 1⟩

/-- The type `common::UInt(bits)`. -/
def ScalarType.uint (bits : Nat) : ScalarType := ⟨TypeKind.UInt, bits, 1⟩

/-- The type `common::Float(bits)`. -/
def ScalarType.float (bits : Nat) : ScalarType := ⟨TypeKind.Float, bits, 1⟩

/-- Modelled from the spec: "boolean is always an 8-bit storage type with value domain
{0,1}". -/
def ScalarType.bool : ScalarType := ⟨TypeKind.Bool, 8, 1⟩

/-- Modelled from the spec: the kinds of `BinaryOp`. -/
inductive BinaryKind where
  | Add
  | Sub
  | Mul
  | Div
  | Mod
  | Min
  | Max
deriving DecidableEq, Repr

/-- Modelled from the spec: the kinds of `CompareOp`. -/
inductive CompareKind where
  | EQ
  | NE
  | LT
  | LE
  | GT
  | GE
deriving DecidableEq, Repr

/-- Modelled from the spec: the `Expression` variants the claims on the code generator are
about: immediates (`ir::IntImm`, `ir::UIntImm`, `ir::FloatImm`, each with its declared
type), `BinaryOp` with the node's declared type, and `CompareOp`. -/
inductive Expression where
  | IntImm (t : ScalarType) (value : Int)
  | UIntImm (t : ScalarType) (value : Nat)
  | FloatImm (t : ScalarType) (value : ℚ)
  | Binary (kind : BinaryKind) (t : ScalarType) (a b : Expression)
  | Compare (kind : CompareKind) (a b : Expression)
deriving DecidableEq, Repr

/-- An emitted constant: its type and its value. -/
inductive Constant where
  | int (t : ScalarType) (value : Int)
  | fp (t : ScalarType) (value : ℚ)
deriving DecidableEq, Repr

/-- Modelled from the spec: the error taxonomy of its section 7; `Undefined` stands for
behaviour the specification leaves open (division by zero, an index out of range, a read
of storage never written). -/
inductive CodegenError where
  | PreconditionViolation
  | UnsupportedConstruct
  | TypeError
  | UnboundResource
  | DuplicateDefinition
  | UnbalancedResource
  | Undefined
deriving DecidableEq, Repr

deriving instance DecidableEq for Except

/-- The value of the machine integer of type `t` that the mathematical integer `v` reduces
to: two's complement for signed types, the residue for unsigned ones. -/
def wrap (t : ScalarType) (v : Int) : Int :=
  match t.kind with
  | TypeKind.Int => (v + 2 ^ (t.bits - 1)) % 2 ^ t.bits - 2 ^ (t.bits - 1)
  | TypeKind.UInt => v % 2 ^ t.bits
  | TypeKind.Bool => v % 2 ^ t.bits
  | TypeKind.Float => v

/-- The integer `v` is a value of the integer type `t`. -/
def InRange (t : ScalarType) (v : Int) : Prop :=
  0 < t.bits ∧
    match t.kind with
    | TypeKind.Int => -(2 ^ (t.bits - 1)) ≤ v ∧ v < 2 ^ (t.bits - 1)
    | TypeKind.UInt => 0 ≤ v ∧ v < 2 ^ t.bits
    | TypeKind.Bool => 0 ≤ v ∧ v < 2
    | TypeKind.Float => False

instance (t : ScalarType) (v : Int) : Decidable (InRange t v) := by
  unfold InRange; cases t.kind <;> infer_instance

/-- Modelled from the spec: the integer operations, "integer Div/Mod truncate toward zero;
Min/Max follow total order for integers". -/
def intBinary : BinaryKind → Int → Int → Int
  | BinaryKind.Add, x, y => x + y
  | BinaryKind.Sub, x, y => x - y
  | BinaryKind.Mul, x, y => x * y
  | BinaryKind.Div, x, y => Int.tdiv x y
  | BinaryKind.Mod, x, y => Int.tmod x y
  | BinaryKind.Min, x, y => if x ≤ y then x else y
  | BinaryKind.Max, x, y => if x ≤ y then y else x

/-- The exact result `r` of an integer operation on `x` and `y`, in the words of the
specification and on the mathematical integers, with no reference to the generator: the sum,
the difference, the product; for `Div` the quotient truncated toward zero and for `Mod` its
remainder, so that `x = y * quotient + remainder` with a remainder smaller than the divisor
in absolute value and of the sign of the dividend; for `Min` and `Max` the operand that is
below, respectively above, both. -/
def ExactResult : BinaryKind → Int → Int → Int → Prop
  | BinaryKind.Add, x, y, r => r = x + y
  | BinaryKind.Sub, x, y, r => r = x - y
  | BinaryKind.Mul, x, y, r => r = x * y
  | BinaryKind.Div, x, y, r =>
    ∃ rem : Int, x = y * r + rem ∧ |rem| < |y| ∧ (0 ≤ x → 0 ≤ rem) ∧ (x ≤ 0 → rem ≤ 0)
  | BinaryKind.Mod, x, y, r =>
    ∃ quot : Int, x = y * quot + r ∧ |r| < |y| ∧ (0 ≤ x → 0 ≤ r) ∧ (x ≤ 0 → r ≤ 0)
  | BinaryKind.Min, x, y, r => r ≤ x ∧ r ≤ y ∧ (r = x ∨ r = y)
  | BinaryKind.Max, x, y, r => x ≤ r ∧ y ≤ r ∧ (r = x ∨ r = y)

/-- The exact result of a floating operation on finite values, before rounding; the
remainder has the sign of the dividend. -/
def ratBinary : BinaryKind → ℚ → ℚ → ℚ
  | BinaryKind.Add, x, y => x + y
  | BinaryKind.Sub, x, y => x - y
  | BinaryKind.Mul, x, y => x * y
  | BinaryKind.Div, x, y => x / y
  | BinaryKind.Mod, x, y => x - y * ((Int.tdiv (x / y).num (x / y).den : Int) : ℚ)
  | BinaryKind.Min, x, y => if x ≤ y then x else y
  | BinaryKind.Max, x, y => if x ≤ y then y else x

/-- The comparison instruction on two values of an ordered type. -/
def CompareKind.eval {α : Type} [LinearOrder α] : CompareKind → α → α → Bool
  | CompareKind.EQ, x, y => decide (x = y)
  | CompareKind.NE, x, y => !decide (x = y)
  | CompareKind.LT, x, y => decide (x < y)
  | CompareKind.LE, x, y => decide (x ≤ y)
  | CompareKind.GT, x, y => decide (y < x)
  | CompareKind.GE, x, y => decide (y ≤ x)

/-- The relation a comparison kind names, as a proposition. -/
def CompareKind.Holds {α : Type} [LinearOrder α] : CompareKind → α → α → Prop
  | CompareKind.EQ, x, y => x = y
  | CompareKind.NE, x, y => x ≠ y
  | CompareKind.LT, x, y => x < y
  | CompareKind.LE, x, y => x ≤ y
  | CompareKind.GT, x, y => x > y
  | CompareKind.GE, x, y => x ≥ y

instance {α : Type} [LinearOrder α] (k : CompareKind) (x y : α) : Decidable (k.Holds x y) := by
  cases k <;> unfold CompareKind.Holds <;> infer_instance

/-- The kind divides: `Div` or `Mod`. -/
def BinaryKind.divides : BinaryKind → Bool
  | BinaryKind.Div => true
  | BinaryKind.Mod => true
  | _ => false

namespace CodeGenLLVM

/-- Modelled from the spec: `CodeGenLLVM::Visit` on immediates, `BinaryOp` and `CompareOp`
(codegen_llvm.cc is absent; the instruction builder folds operations on constants, which is
what the tests compare against).  "Result type of BinaryOp is the node's declared type";
"CompareOp always yields the boolean type with value 1 (true) or 0 (false)"; a type
mismatch in a binary or a comparison is the fatal `TypeError`.  `rnd bits` rounds a rational
to the floating format of that width. -/
def Visit (rnd : Nat → ℚ → ℚ) : Expression → Except CodegenError Constant
  | Expression.IntImm t v =>
    if t.kind = TypeKind.Int then Except.ok (Constant.int t (wrap t v))
    else Except.error CodegenError.TypeError
  | Expression.UIntImm t v =>
    if t.kind = TypeKind.UInt then Except.ok (Constant.int t (wrap t v))
    else Except.error CodegenError.TypeError
  | Expression.FloatImm t v =>
    if t.kind = TypeKind.Float then Except.ok (Constant.fp t (rnd t.bits v))
    else Except.error CodegenError.TypeError
  | Expression.Binary k t a b =>
    match Visit rnd a, Visit rnd b with
    | Except.ok (Constant.int ta x), Except.ok (Constant.int tb y) =>
      if ta = t ∧ tb = t then
        if k.divides = true ∧ y = 0 then Except.error CodegenError.Undefined
        else Except.ok (Constant.int t (wrap t (intBinary k x y)))
      else Except.error CodegenError.TypeError
    | Except.ok (Constant.fp ta x), Except.ok (Constant.fp tb y) =>
      if ta = t ∧ tb = t then
        if k.divides = true ∧ y = 0 then Except.error CodegenError.Undefined
        else Except.ok (Constant.fp t (rnd t.bits (ratBinary k x y)))
      else Except.error CodegenError.TypeError
    | Except.ok _, Except.ok _ => Except.error CodegenError.TypeError
    | Except.error err, _ => Except.error err
    | Except.ok _, Except.error err => Except.error err
  | Expression.Compare k a b =>
    match Visit rnd a, Visit rnd b with
    | Except.ok (Constant.int ta x), Except.ok (Constant.int tb y) =>
      if ta = tb then
        Except.ok (Constant.int ScalarType.bool (if k.eval x y = true then 1 else 0))
      else Except.error CodegenError.TypeError
    | Except.ok (Constant.fp ta x), Except.ok (Constant.fp tb y) =>
      if ta = tb then
        Except.ok (Constant.int ScalarType.bool (if k.eval x y = true then 1 else 0))
      else Except.error CodegenError.TypeError
    | Except.ok _, Except.ok _ => Except.error CodegenError.TypeError
    | Except.error err, _ => Except.error err
    | Except.ok _, Except.error err => Except.error err

end CodeGenLLVM

namespace CodeGenLLVM

end CodeGenLLVM

end backends

/-! ## The variable bookkeeping of `cinn/frontend/op_mapper_registry.h`

`OpMapperContext` holds a pointer to the variable map and a pointer to the scope; its
methods are `const` and write through the map pointer.  A fatal `CHECK` or `LOG(FATAL)`
ends the process: the outcome then records the map as it is at that moment.  The helpers
`cinn::utils::TransValidVarName` and `CheckVarNameValid` are defined in files that are not
among the sources at hand and are parameters.
-/

namespace frontend

/-- The fields of `frontend::Variable` that `GetVar` sets: the id, the shape and the type
(`syntax.h` is absent). -/
structure Variable where
  id : String
  shape : List Int
  type : backends.ScalarType
deriving DecidableEq, Repr

/-- The part of `hlir::framework::Tensor` that `GetVar` reads: `shape().data()` and
`type()` (`scope.h` is absent). -/
structure ScopeTensor where
  shape : List Int
  type : backends.ScalarType
deriving DecidableEq, Repr

/-- The class `hlir::framework::Scope`: the tensors it holds, by name. -/
structure Scope where
  vars : List (String × ScopeTensor)
deriving DecidableEq, Repr

/-- The method `Scope::FindVar`: the variable of that name, or null. -/
def Scope.FindVar (scope : Scope) (name : String) : Option ScopeTensor :=
  scope.vars.lookup name

/-- The map `absl::flat_hash_map<std::string, Variable>` behind `var_map_`; the binding
nearest the head is the one of its key. -/
abbrev VarMap := List (String × Variable)

/-- The lookup `var_map_->find(name)`. -/
def VarMap.find (m : VarMap) (name : String) : Option Variable :=
  List.lookup name m

/-- The test `var_map_->count(name)`. -/
def VarMap.count (m : VarMap) (name : String) : Nat :=
  if (m.find name).isSome then 1 else 0

/-- The assignment `(*var_map_)[name] = var`: the key is bound to `var`, any earlier
binding of it is replaced. -/
def VarMap.assign (m : VarMap) (name : String) (var : Variable) : VarMap :=
  (name, var) :: m.filter (fun p => p.1 != name)

/-- The helpers of `cinn/utils` that the context calls. -/
structure NameHelpers where
  TransValidVarName : String → String
  CheckVarNameValid : String → Bool

/-- The class `OpMapperContext`, as far as `AddVar` and `GetVar` use it. -/
structure OpMapperContext where
  scope_ : Scope
  var_map_ : VarMap
deriving DecidableEq, Repr

/-- How a call ends: it returns a value, or the process is ended by a fatal check; in both
cases with the variable map as the call leaves it. -/
inductive Outcome (α : Type) where
  | ok (value : α) (var_map : VarMap)
  | fatal (var_map : VarMap)
deriving DecidableEq, Repr

/-- The map a call leaves. -/
def Outcome.var_map {α : Type} : Outcome α → VarMap
  | Outcome.ok _ m => m
  | Outcome.fatal m => m

/-- The call ended in a fatal check. -/
def Outcome.isFatal {α : Type} : Outcome α → Bool
  | Outcome.ok _ _ => false
  | Outcome.fatal _ => true

/-- The method `OpMapperContext::AddVar` of op_mapper_registry.h, lines 54-61.
`CheckVarNameValid` is fatal on a name it rejects. -/
def OpMapperContext.AddVar (H : NameHelpers) (ctx : OpMapperContext) (origin_name : String)
    (var : Variable) (replace : Bool) : Outcome Unit :=
  let name := H.TransValidVarName origin_name
  if H.CheckVarNameValid name = false then Outcome.fatal ctx.var_map_
  else if replace = false ∧ ctx.var_map_.count name ≠ 0 then Outcome.fatal ctx.var_map_
  else Outcome.ok () (ctx.var_map_.assign name var)

/-- The method `OpMapperContext::GetVar` of op_mapper_registry.h, lines 67-87. -/
def OpMapperContext.GetVar (H : NameHelpers) (ctx : OpMapperContext) (origin_name : String) :
    Outcome Variable :=
  let name := H.TransValidVarName origin_name
  if H.CheckVarNameValid name = false then Outcome.fatal ctx.var_map_
  else
    match ctx.var_map_.find name with
    | some v => Outcome.ok v ctx.var_map_
    | none =>
      match ctx.scope_.FindVar name with
      | some tensor =>
        let var : Variable := { id := name, shape := tensor.shape, type := tensor.type }
        match ctx.AddVar H name var false with
        | Outcome.ok _ m => Outcome.ok var m
        | Outcome.fatal m => Outcome.fatal m
      | none => Outcome.fatal ctx.var_map_

/-- A concrete name normalizer: a dot becomes two underscores, a slash three, and leading
underscores are dropped. -/
def demoTransValidVarName (name : String) : String :=
  String.mk ((name.data.flatMap (fun c =>
    if c = '.' then ['_', '_'] else if c = '/' then ['_', '_', '_'] else [c])).dropWhile
      (fun c => c == '_'))

/-- A concrete name check: the name is not empty and has no dot, slash or blank. -/
def demoCheckVarNameValid (name : String) : Bool :=
  !name.data.isEmpty && name.data.all (fun c => c != '.' && c != '/' && c != ' ')

/-- The concrete helpers. -/
def demoHelpers : NameHelpers := ⟨demoTransValidVarName, demoCheckVarNameValid⟩

/-- A float32 variable of shape `[2, 3]` with the given id. -/
def demoVariable (id : String) : Variable := ⟨id, [2, 3], backends.ScalarType.float 32⟩

/-- A context with one scope tensor `fc__w___0` and one mapped variable `x`. -/
def demoContext : OpMapperContext :=
  { scope_ := ⟨[("fc__w___0", ⟨[4, 5], backends.ScalarType.float 32⟩)]⟩,
    var_map_ := [("x", demoVariable "x")] }

end frontend

/-! # Theorems -/

open optim

/-! ## Reachability -/

theorem Reach.closed {h : Heap} (hc : h.Closed) {r l : Loc} (hr : Reach h r l)
    (hlt : r < h.cells.length) : l < h.cells.length := by
  induction hr with
  | refl => exact hlt
  | step node hnode hm _ ih =>
    apply ih
    exact hc node (List.getElem?_mem hnode) _ hm

theorem Allocated_of_Closed {h : Heap} (hc : h.Closed) {r : Loc}
    (hlt : r < h.cells.length) : Allocated h ⟨some r⟩ := by
  intro l hl
  obtain ⟨r', hr', hreach⟩ := hl
  cases hr'
  exact hreach.closed hc hlt

theorem readTree_congr {h h' : Heap} (hsame : SameBelow h h') :
    ∀ (fuel : Nat) (r : Loc), (∀ l, Reach h r l → l < h.cells.length) →
      readTree h' fuel r = readTree h fuel r := by
  intro fuel
  induction fuel with
  | zero => intro r _; rfl
  | succ k ih =>
    intro r hr
    have hlt : r < h.cells.length := hr r (Reach.refl r)
    have hcell : h'.cells[r]? = h.cells[r]? := hsame r hlt
    simp only [readTree, hcell]
    cases hn : h.cells[r]? with
    | none => rfl
    | some n =>
      simp only [Tree.node.injEq, true_and]
      apply List.map_congr_left
      intro m hm
      exact ih m (fun l hl => hr l (Reach.step n hn hm hl))

theorem SameTree_of_SameBelow {h h' : Heap} (hsame : SameBelow h h') {e : Expr}
    (ha : Allocated h e) : SameTree h h' e.ptr := by
  intro r hr fuel
  exact readTree_congr hsame fuel r (fun l hl => ha l ⟨r, hr, hl⟩)

/-! ## The invariant is kept by every disciplined step -/

theorem Kept_of_DeepCopy {copy : Expr → Heap → St} (hc : DeepCopy copy) (e : Expr)
    (h : Heap) : Kept h (copy e h) :=
  hc e h

theorem Kept_pass {p : Pass} (hp : Pass.Frame p) {h0 : Heap} {s : St} (hs : Kept h0 s) :
    Kept h0 (p s) := by
  obtain ⟨hlen, hkeep, hreach⟩ := hp s
  obtain ⟨h1, h2, h3⟩ := hs
  refine ⟨le_trans h1 hlen, ?_, ?_⟩
  · intro l hl
    rw [hkeep l (lt_of_lt_of_le hl h1) (fun hr => absurd (h3 l hr) (not_le.mpr hl))]
    exact h2 l hl
  · intro l hl
    rcases hreach l hl with hold | hnew
    · exact h3 l hold
    · exact le_trans h1 hnew

theorem Kept_ite {c : Prop} [Decidable c] {h0 : Heap} {a b : St} (ha : Kept h0 a)
    (hb : Kept h0 b) : Kept h0 (if c then a else b) := by
  split
  · exact ha
  · exact hb

theorem Optimize_Kept (P : Passes) (hP : P.Disciplined) (cfg : Config) (e : Expr)
    (target : Target) (dbg rm : Bool) (h : Heap) (s : St)
    (hs : Optimize P cfg e target dbg rm h = some s) : Kept h s := by
  unfold Optimize at hs
  split at hs
  · cases hs
  · have hcopy := Kept_of_DeepCopy hP.IRCopy e h
    obtain ⟨-, h1, h2, h3, h4, h5, h6, h7, h8, h9, h10, h11, h12, h13, h14, h15, -, -, -, -⟩ := hP
    simp only [Option.some.injEq] at hs
    subst hs
    repeat' first
      | exact hcopy
      | apply Kept_ite
      | apply Kept_pass
      | assumption
      | apply_assumption

theorem Optimize_Module_SameBelow (P : Passes) (hP : P.Disciplined) (cfg : Config)
    (m : Module) (target : Target) (h : Heap) :
    SameBelow h (Optimize_Module P cfg m target h).2 := by
  have hcopy := Kept_of_DeepCopy hP.IRCopy (Expr.ofModule m) h
  have hfin : Kept h (P.LowerIntrin target (P.CallArgListToPodValue
      (P.LowerFunctionCallBindVars (P.RemoveScheduleBlock
        (if cfg.FLAGS_cinn_ir_schedule = true then
          P.VectorizeLoops Target.ctor (P.UnrollLoop (P.IRCopy (Expr.ofModule m) h))
         else P.IRCopy (Expr.ofModule m) h))))) := by
    apply Kept_pass (hP.LowerIntrin target)
    apply Kept_pass hP.CallArgListToPodValue
    apply Kept_pass hP.LowerFunctionCallBindVars
    apply Kept_pass hP.RemoveScheduleBlock
    apply Kept_ite
    · exact Kept_pass (hP.VectorizeLoops _) (Kept_pass hP.UnrollLoop hcopy)
    · exact hcopy
  exact hfin.2.1

/-! ## The concrete family is disciplined -/

theorem Frame_id : Pass.Frame id := by
  intro s
  exact ⟨le_refl _, fun _ _ _ => rfl, fun _ hl => Or.inl hl⟩

theorem Reach_of_set_info {h : Heap} {r : Loc} {n : IrNode} (hn : h.cells[r]? = some n)
    (k : Nat) {x l : Loc}
    (hx : Reach ⟨h.cells.set r { n with info := k }⟩ x l) : Reach h x l := by
  induction hx with
  | refl l => exact Reach.refl l
  | @step a b c node hnode hm _ ih =>
    by_cases hra : r = a
    · subst hra
      have hlt : r < h.cells.length := by
        rcases Nat.lt_or_ge r h.cells.length with hlt | hge
        · exact hlt
        · rw [List.getElem?_eq_none hge] at hn
          cases hn
      simp only [List.getElem?_set_self hlt, Option.some.injEq] at hnode
      subst hnode
      exact Reach.step n hn hm ih
    · simp only [List.getElem?_set_ne hra] at hnode
      exact Reach.step node hnode hm ih

theorem Frame_mapRoot (f : Nat → Nat) : Pass.Frame (mapRoot f) := by
  intro s
  cases hp : s.copied.ptr with
  | none =>
    have hs : mapRoot f s = s := by simp [mapRoot, hp]
    rw [hs]
    exact ⟨le_refl _, fun _ _ _ => rfl, fun _ hl => Or.inl hl⟩
  | some r =>
    cases hn : s.heap.cells[r]? with
    | none =>
      have hs : mapRoot f s = s := by simp [mapRoot, hp, hn]
      rw [hs]
      exact ⟨le_refl _, fun _ _ _ => rfl, fun _ hl => Or.inl hl⟩
    | some n =>
      have hs : mapRoot f s
          = { s with heap := ⟨s.heap.cells.set r { n with info := f n.info }⟩ } := by
        simp [mapRoot, hp, hn]
      rw [hs]
      refine ⟨by simp, ?_, ?_⟩
      · intro l _ hnr
        have hne : r ≠ l := by
          intro heq
          exact hnr ⟨r, hp, heq ▸ Reach.refl r⟩
        simp [List.getElem?_set_ne hne]
      · intro l hl
        obtain ⟨r', hr', hreach⟩ := hl
        simp only [hp, Option.some.injEq] at hr'
        subst hr'
        exact Or.inl ⟨r, hp, Reach_of_set_info hn _ hreach⟩

theorem Reach_cloneAll_ge (h : Heap) {x l : Loc}
    (hx : Reach ⟨h.cells ++ h.cells.map (IrNode.shift h.cells.length)⟩ x l)
    (hge : h.cells.length ≤ x) : h.cells.length ≤ l := by
  induction hx with
  | refl l => exact hge
  | @step a b c node hnode hm _ ih =>
    apply ih
    simp only [List.getElem?_append_right hge, List.getElem?_map] at hnode
    cases hcell : h.cells[a - h.cells.length]? with
    | none => simp [hcell] at hnode
    | some n0 =>
      simp only [hcell, Option.map_some', Option.some.injEq] at hnode
      subst hnode
      simp only [IrNode.shift, List.mem_map] at hm
      obtain ⟨m0, _, hm0⟩ := hm
      rw [← hm0]
      exact Nat.le_add_left _ _

theorem DeepCopy_cloneAll : DeepCopy cloneAll := by
  intro e h
  refine ⟨by simp [cloneAll], ?_, ?_⟩
  · intro l hl
    simp [cloneAll, List.getElem?_append_left hl]
  · intro l hl
    obtain ⟨r, hr, hreach⟩ := hl
    cases hp : e.ptr with
    | none => simp [cloneAll, hp] at hr
    | some r0 =>
      simp only [cloneAll, hp, Option.map_some', Option.some.injEq] at hr
      subst hr
      exact Reach_cloneAll_ge h hreach (Nat.le_add_left _ _)

theorem demoPasses_Disciplined : demoPasses.Disciplined where
  IRCopy := DeepCopy_cloneAll
  FoldCINNCallArguments := Frame_mapRoot _
  TransformPolyForToFor := Frame_mapRoot _
  ReplaceConstParamToInteger := Frame_mapRoot _
  CastSimplify := Frame_mapRoot _
  Simplify := Frame_mapRoot _
  UnrollLoop := Frame_mapRoot _
  VectorizeLoops := fun _ => Frame_mapRoot _
  SetCudaAxisInfo := Frame_mapRoot _
  RemoveGpuForloopsAxis := Frame_mapRoot _
  CudaSyncThreadsDropIfThenElse := Frame_mapRoot _
  RemoveNestedBlock := Frame_id
  MapExternCall := fun _ => Frame_id
  ExternCallMultiOutputShallowStore := Frame_id
  IfSimplify := Frame_id
  InsertDebugLogCallee := Frame_mapRoot _
  RemoveScheduleBlock := Frame_id
  LowerFunctionCallBindVars := Frame_id
  CallArgListToPodValue := Frame_id
  LowerIntrin := fun _ => Frame_id

/-! ## The claims on the pipelines -/

/-- C1: in a build without accelerator support and with `debug_info` off, expression-level
`Optimize` of a defined expression returns the result of applying to `IRCopy e` the thirteen
steps of the specification, in its order (an undefined expression is the fatal check);
unrolling comes before vectorization and the first boolean normalization before the
external-call signature mapping. -/
theorem Optimize_eq_specExprSteps (P : Passes) (schedule_ir : Bool) (e : Expr)
    (target : Target) (strip : Bool) (h : Heap) :
    Optimize P ⟨false, schedule_ir⟩ e target false strip h
        = (if e.defined then
            some (runSteps P target target specExprSteps (P.IRCopy e h))
           else none) ∧
      specExprSteps.indexOf Step.UnrollLoop < specExprSteps.indexOf Step.VectorizeLoops ∧
      specExprSteps.indexOf Step.CastSimplify < specExprSteps.indexOf Step.MapExternCall ∧
      specExprSteps.length = 13 := by
  refine ⟨?_, by decide, by decide, by decide⟩
  cases hd : e.defined <;> simp [Optimize, hd, runSteps, specExprSteps, Step.run]

/-- C2: module-level `Optimize` returns the module behind the result of applying to
`IRCopy (Expr module)` unrolling and vectorization (only under the schedule-IR flag) and
then RemoveScheduleBlock, LowerFunctionCallBindVars, CallArgListToPodValue and LowerIntrin
with the caller's target; with the flag off the result is what it is when unrolling and
vectorization do nothing. -/
theorem Optimize_Module_eq_specModuleSteps (P : Passes) (cfg : Config) (m : Module)
    (t : Target) (h : Heap) :
    Optimize_Module P cfg m t h
        = (P.as_module_ref (runSteps P Target.ctor t
              (specModuleSteps cfg.FLAGS_cinn_ir_schedule) (P.IRCopy (Expr.ofModule m) h)),
           (runSteps P Target.ctor t
              (specModuleSteps cfg.FLAGS_cinn_ir_schedule)
              (P.IRCopy (Expr.ofModule m) h)).heap) ∧
      Optimize_Module P ⟨cfg.CINN_WITH_CUDA, false⟩ m t h
        = Optimize_Module P.withoutUnrollVectorize ⟨cfg.CINN_WITH_CUDA, false⟩ m t h := by
  constructor
  · cases hf : cfg.FLAGS_cinn_ir_schedule <;>
      simp [Optimize_Module, hf, runSteps, specModuleSteps, Step.run]
  · simp [Optimize_Module, Passes.withoutUnrollVectorize]

/-- C3: non-mutation.  When `IRCopy` is a deep copy and every pass keeps to the tree it is
handed, both `Optimize` overloads leave every node that existed at the call as it was, for
every target and every value of the flags; the caller's tree, when it has no dangling
handle, reads the same after the call as before, to every depth. -/
theorem Optimize_non_mutation (P : Passes) (hP : P.Disciplined) (cfg : Config) (e : Expr)
    (he : e.defined = true) (m : Module) (target : Target) (dbg rm : Bool) (h : Heap)
    (hae : Allocated h e) (ham : Allocated h (Expr.ofModule m)) :
    (∃ s, Optimize P cfg e target dbg rm h = some s ∧ SameBelow h s.heap ∧
        SameTree h s.heap e.ptr) ∧
      SameBelow h (Optimize_Module P cfg m target h).2 ∧
      SameTree h (Optimize_Module P cfg m target h).2 m.ptr := by
  refine ⟨?_, Optimize_Module_SameBelow P hP cfg m target h, ?_⟩
  · cases hs : Optimize P cfg e target dbg rm h with
    | none => simp [Optimize, he] at hs
    | some s =>
      have hk := Optimize_Kept P hP cfg e target dbg rm h s hs
      exact ⟨s, rfl, hk.2.1, SameTree_of_SameBelow hk.2.1 hae⟩
  · exact SameTree_of_SameBelow (Optimize_Module_SameBelow P hP cfg m target h) ham

/-- Witness of C3: the concrete family, run with every accelerator and debug step on, on
the tree `0 -> [1, 2]`. -/
theorem Optimize_non_mutation_witness :
    demoPasses.Disciplined ∧ Expr.defined ⟨some 0⟩ = true ∧
      Allocated demoHeap ⟨some 0⟩ ∧ Allocated demoHeap (Expr.ofModule ⟨some 0⟩) ∧
      ((∃ s, Optimize demoPasses ⟨true, true⟩ ⟨some 0⟩ hostTarget true true demoHeap = some s ∧
          SameBelow demoHeap s.heap ∧ SameTree demoHeap s.heap (some 0)) ∧
        SameBelow demoHeap (Optimize_Module demoPasses ⟨true, true⟩ ⟨some 0⟩ hostTarget demoHeap).2 ∧
        SameTree demoHeap
          (Optimize_Module demoPasses ⟨true, true⟩ ⟨some 0⟩ hostTarget demoHeap).2 (some 0)) :=
  ⟨demoPasses_Disciplined, rfl,
   Allocated_of_Closed (by decide) (by decide),
   Allocated_of_Closed (by decide) (by decide),
   Optimize_non_mutation demoPasses demoPasses_Disciplined ⟨true, true⟩ ⟨some 0⟩ rfl ⟨some 0⟩
     hostTarget true true demoHeap
     (Allocated_of_Closed (by decide) (by decide))
     (Allocated_of_Closed (by decide) (by decide))⟩

/-- C4: with `debug_info` set the result is `InsertDebugLogCallee` applied to the result
with `debug_info` off, so the instrumentation is the outermost, last step; with
`debug_info` off the result is what it is when `InsertDebugLogCallee` does nothing. -/
theorem Optimize_debug_last (P : Passes) (cfg : Config) (e : Expr) (t : Target)
    (s : Bool) (h : Heap) :
    Optimize P cfg e t true s h
        = (Optimize P cfg e t false s h).map P.InsertDebugLogCallee ∧
      Optimize P cfg e t false s h = Optimize P.withoutDebug cfg e t false s h := by
  constructor
  · cases hd : e.defined <;> simp [Optimize, hd]
  · simp [Optimize, Passes.withoutDebug]

/-- C5, as stated, fails: in a build with accelerator support, for a general-purpose
target, barrier insertion is applied. -/
theorem Optimize_accelerator_on_host :
    hostTarget.arch = ArchClass.GeneralPurpose ∧
      Optimize demoPasses ⟨true, false⟩ ⟨some 0⟩ hostTarget false false demoHeap
        ≠ Optimize demoPasses.withoutAccelerator ⟨true, false⟩ ⟨some 0⟩ hostTarget false false
            demoHeap := by
  decide

/-- C5, amended: the accelerator passes are gated by the build, not by the target.  In a
build without accelerator support the result is, for every target, what it is when the
three accelerator passes do nothing; in a build with it, for every target, axis binding
(under the schedule-IR flag, for a lowered function), wrapper stripping (under its flag)
and barrier insertion are applied after vectorization. -/
theorem Optimize_accelerator_gate (P : Passes) (schedule_ir : Bool) (e : Expr)
    (t : Target) (dbg strip : Bool) (h : Heap) :
    Optimize P ⟨false, schedule_ir⟩ e t dbg strip h
        = Optimize P.withoutAccelerator ⟨false, schedule_ir⟩ e t dbg strip h ∧
      Optimize P ⟨true, schedule_ir⟩ e t dbg strip h
        = (if e.defined then
            some (exprBack P t dbg
              ((if strip then P.RemoveGpuForloopsAxis else id)
                (exprFront P ⟨true, schedule_ir⟩ t (P.IRCopy e h))))
           else none) := by
  constructor
  · simp [Optimize, Passes.withoutAccelerator]
  · cases hd : e.defined <;> cases strip <;>
      simp [Optimize, hd, exprBack, exprFront, runSteps, Step.run]

/-- C6, the code at the failing input: with the schedule-IR flag on and the general-purpose
target of eight lanes, module-level `Optimize` vectorizes for `Target()` and not for the
target it was passed, which it uses for `LowerIntrin` only. -/
theorem Optimize_Module_vectorizes_default_target :
    (Optimize_Module demoPasses ⟨false, true⟩ ⟨some 0⟩ hostTarget demoHeap).2
        = (runSteps demoPasses Target.ctor hostTarget (specModuleSteps true)
            (demoPasses.IRCopy (Expr.ofModule ⟨some 0⟩) demoHeap)).heap ∧
      (Optimize_Module demoPasses ⟨false, true⟩ ⟨some 0⟩ hostTarget demoHeap).2
        ≠ (runSteps demoPasses hostTarget hostTarget (specModuleSteps true)
            (demoPasses.IRCopy (Expr.ofModule ⟨some 0⟩) demoHeap)).heap := by
  decide

/-- C7: in a build with accelerator support `RemoveGpuForloopsAxis` is applied exactly
when the flag is set, right after axis binding and right before barrier insertion, and the
two runs differ by that pass only; in a build without it the result does not depend on the
flag. -/
theorem Optimize_strip_flag (P : Passes) (schedule_ir : Bool) (e : Expr) (t : Target)
    (dbg : Bool) (h : Heap) :
    Optimize P ⟨true, schedule_ir⟩ e t dbg true h
        = (if e.defined then
            some (exprBack P t dbg (P.RemoveGpuForloopsAxis
              (exprFront P ⟨true, schedule_ir⟩ t (P.IRCopy e h))))
           else none) ∧
      Optimize P ⟨true, schedule_ir⟩ e t dbg false h
        = (if e.defined then
            some (exprBack P t dbg (exprFront P ⟨true, schedule_ir⟩ t (P.IRCopy e h)))
           else none) ∧
      Optimize P ⟨false, schedule_ir⟩ e t dbg true h
        = Optimize P ⟨false, schedule_ir⟩ e t dbg false h := by
  refine ⟨?_, ?_, ?_⟩
  · cases hd : e.defined <;> simp [Optimize, hd, exprBack, exprFront, runSteps, Step.run]
  · cases hd : e.defined <;> simp [Optimize, hd, exprBack, exprFront, runSteps, Step.run]
  · simp [Optimize]

/-! ## The code generator -/

namespace backends
open CodeGenLLVM

theorem wrap_of_InRange {t : ScalarType} {v : Int} (h : InRange t v) : wrap t v = v := by
  obtain ⟨hb, hr⟩ := h
  unfold wrap
  cases hkind : t.kind with
  | Int =>
    simp only [hkind] at hr ⊢
    have hpow : (2:Int) ^ t.bits = 2 * 2 ^ (t.bits - 1) := by
      obtain ⟨n, hn⟩ : ∃ n, t.bits = n + 1 := ⟨t.bits - 1, by omega⟩
      rw [hn]; simp [pow_succ]; ring
    rw [hpow]
    have hpos : (0:Int) < 2 ^ (t.bits - 1) := by positivity
    rw [Int.emod_eq_of_lt (by omega) (by omega)]
    ring
  | UInt =>
    simp only [hkind] at hr ⊢
    exact Int.emod_eq_of_lt hr.1 hr.2
  | Bool =>
    simp only [hkind] at hr ⊢
    have h2 : (2:Int) ≤ 2 ^ t.bits := by
      obtain ⟨n, hn⟩ : ∃ n, t.bits = n + 1 := ⟨t.bits - 1, by omega⟩
      rw [hn, pow_succ]
      have hpos : (0:Int) < 2 ^ n := by positivity
      omega
    exact Int.emod_eq_of_lt hr.1 (by omega)
  | Float => rfl

theorem eval_iff_Holds {α : Type} [LinearOrder α] (k : CompareKind) (x y : α) :
    k.eval x y = true ↔ k.Holds x y := by
  cases k <;> simp [CompareKind.eval, CompareKind.Holds]

theorem Holds_natCast (k : CompareKind) (x y : Nat) :
    k.Holds (x : Int) (y : Int) ↔ k.Holds x y := by
  cases k <;> simp [CompareKind.Holds]

/-- C8: a comparison of two immediates of one common type (signed or unsigned integers in
the range of the type, or finite floating values of the format) is generated as a constant
of the 8-bit boolean type whose value is 1 when the relation holds between the two values
and 0 otherwise, whatever the kind and width of the operands. -/
theorem Visit_Compare_immediates (rnd : Nat → ℚ → ℚ) (k : CompareKind) (t : ScalarType) :
    (∀ x y : Int, t.kind = TypeKind.Int → InRange t x → InRange t y →
      Visit rnd (Expression.Compare k (Expression.IntImm t x) (Expression.IntImm t y))
        = Except.ok (Constant.int ScalarType.bool (if k.Holds x y then 1 else 0))) ∧
    (∀ x y : Nat, t.kind = TypeKind.UInt → InRange t x → InRange t y →
      Visit rnd (Expression.Compare k (Expression.UIntImm t x) (Expression.UIntImm t y))
        = Except.ok (Constant.int ScalarType.bool (if k.Holds x y then 1 else 0))) ∧
    (∀ x y : ℚ, t.kind = TypeKind.Float → rnd t.bits x = x → rnd t.bits y = y →
      Visit rnd (Expression.Compare k (Expression.FloatImm t x) (Expression.FloatImm t y))
        = Except.ok (Constant.int ScalarType.bool (if k.Holds x y then 1 else 0))) ∧
    ScalarType.bool.kind = TypeKind.Bool ∧ ScalarType.bool.bits = 8 := by
  refine ⟨?_, ?_, ?_, rfl, rfl⟩
  · intro x y ht hx hy
    simp [Visit, ht, wrap_of_InRange hx, wrap_of_InRange hy, eval_iff_Holds]
  · intro x y ht hx hy
    simp [Visit, ht, wrap_of_InRange hx, wrap_of_InRange hy, eval_iff_Holds, Holds_natCast]
  · intro x y ht hx hy
    simp [Visit, ht, hx, hy, eval_iff_Holds]

/-- Witness of C8: the six comparisons of the test `CodeGenLLVM.Expr`. -/
theorem Visit_Compare_immediates_witness :
    InRange (ScalarType.int 32) 3 ∧ InRange (ScalarType.int 32) 6 ∧
      Visit (fun _ q => q) (Expression.Compare CompareKind.EQ
          (Expression.IntImm (ScalarType.int 32) 3) (Expression.IntImm (ScalarType.int 32) 3))
        = Except.ok (Constant.int ScalarType.bool 1) ∧
      Visit (fun _ q => q) (Expression.Compare CompareKind.NE
          (Expression.FloatImm (ScalarType.float 32) 3)
          (Expression.FloatImm (ScalarType.float 32) 3))
        = Except.ok (Constant.int ScalarType.bool 0) ∧
      Visit (fun _ q => q) (Expression.Compare CompareKind.LT
          (Expression.IntImm (ScalarType.int 32) 6) (Expression.IntImm (ScalarType.int 32) 6))
        = Except.ok (Constant.int ScalarType.bool 0) ∧
      Visit (fun _ q => q) (Expression.Compare CompareKind.LE
          (Expression.IntImm (ScalarType.int 32) 6) (Expression.IntImm (ScalarType.int 32) 6))
        = Except.ok (Constant.int ScalarType.bool 1) ∧
      Visit (fun _ q => q) (Expression.Compare CompareKind.GT
          (Expression.IntImm (ScalarType.int 32) 6) (Expression.IntImm (ScalarType.int 32) 6))
        = Except.ok (Constant.int ScalarType.bool 0) ∧
      Visit (fun _ q => q) (Expression.Compare CompareKind.GE
          (Expression.IntImm (ScalarType.int 32) 6) (Expression.IntImm (ScalarType.int 32) 6))
        = Except.ok (Constant.int ScalarType.bool 1) :=
  ⟨by decide, by decide,
   (Visit_Compare_immediates (fun _ q => q) CompareKind.EQ (ScalarType.int 32)).1 3 3 rfl
     (by decide) (by decide),
   (Visit_Compare_immediates (fun _ q => q) CompareKind.NE (ScalarType.float 32)).2.2.1 3 3 rfl
     rfl rfl,
   (Visit_Compare_immediates (fun _ q => q) CompareKind.LT (ScalarType.int 32)).1 6 6 rfl
     (by decide) (by decide),
   (Visit_Compare_immediates (fun _ q => q) CompareKind.LE (ScalarType.int 32)).1 6 6 rfl
     (by decide) (by decide),
   (Visit_Compare_immediates (fun _ q => q) CompareKind.GT (ScalarType.int 32)).1 6 6 rfl
     (by decide) (by decide),
   (Visit_Compare_immediates (fun _ q => q) CompareKind.GE (ScalarType.int 32)).1 6 6 rfl
     (by decide) (by decide)⟩

theorem neg_tmod (a b : Int) : (-a).tmod b = -(a.tmod b) := by
  rw [Int.tmod_def, Int.tmod_def, Int.neg_tdiv]
  ring

theorem tmod_sign_and_size (x y : Int) (hy : y ≠ 0) :
    |x.tmod y| < |y| ∧ (0 ≤ x → 0 ≤ x.tmod y) ∧ (x ≤ 0 → x.tmod y ≤ 0) := by
  have key : ∀ a b : Int, 0 ≤ a → 0 < b → 0 ≤ a.tmod b ∧ a.tmod b < b :=
    fun a b ha hb => ⟨Int.tmod_nonneg b ha, Int.tmod_lt_of_pos a hb⟩
  have habs : |x.tmod y| = (|x|).tmod |y| := by
    rcases le_total 0 x with hx | hx <;> rcases le_total 0 y with hy0 | hy0
    · rw [abs_of_nonneg hx, abs_of_nonneg hy0, abs_of_nonneg (Int.tmod_nonneg y hx)]
    · rw [abs_of_nonneg hx, abs_of_nonpos hy0, Int.tmod_neg,
        abs_of_nonneg (Int.tmod_nonneg y hx)]
    · have h1 : 0 ≤ (-x).tmod y := Int.tmod_nonneg y (by omega)
      rw [neg_tmod] at h1
      rw [abs_of_nonpos hx, abs_of_nonneg hy0, neg_tmod, abs_of_nonpos (by omega)]
    · have h1 : 0 ≤ (-x).tmod y := Int.tmod_nonneg y (by omega)
      rw [neg_tmod] at h1
      rw [abs_of_nonpos hx, abs_of_nonpos hy0, Int.tmod_neg, neg_tmod,
        abs_of_nonpos (by omega)]
  refine ⟨?_, fun hx => Int.tmod_nonneg y hx, ?_⟩
  · rw [habs]
    exact (key |x| |y| (abs_nonneg x) (abs_pos.mpr hy)).2
  · intro hx
    have h1 : 0 ≤ (-x).tmod y := Int.tmod_nonneg y (by omega)
    rw [neg_tmod] at h1
    omega

theorem InRange_of_between {t : ScalarType} {x y z : Int} (hx : InRange t x)
    (hy : InRange t y) (h1 : min x y ≤ z) (h2 : z ≤ max x y) : InRange t z := by
  obtain ⟨hb, hrx⟩ := hx
  obtain ⟨_, hry⟩ := hy
  refine ⟨hb, ?_⟩
  cases hkind : t.kind <;> simp only [hkind] at hrx hry ⊢
  all_goals first
    | exact hrx.elim
    | (rcases min_choice x y with hmin | hmin <;> rcases max_choice x y with hmax | hmax <;>
        rw [hmin] at h1 <;> rw [hmax] at h2 <;> constructor <;> omega)

theorem wrap_InRange {t : ScalarType} (ht : t.kind = TypeKind.Int) (hb : 0 < t.bits)
    (v : Int) : InRange t (wrap t v) := by
  refine ⟨hb, ?_⟩
  simp only [ht, wrap]
  have hpow : (2:Int) ^ t.bits = 2 * 2 ^ (t.bits - 1) := by
    obtain ⟨n, hn⟩ : ∃ n, t.bits = n + 1 := ⟨t.bits - 1, by omega⟩
    rw [hn]; simp [pow_succ]; ring
  have hpos : (0:Int) < 2 ^ t.bits := by positivity
  have h1 := Int.emod_nonneg (v + 2 ^ (t.bits - 1)) (ne_of_gt hpos)
  have h2 := Int.emod_lt_of_pos (v + 2 ^ (t.bits - 1)) hpos
  constructor <;> omega

theorem wrap_dvd_sub {t : ScalarType} (ht : t.kind = TypeKind.Int) (v : Int) :
    (2:Int) ^ t.bits ∣ wrap t v - v := by
  simp only [ht, wrap]
  have h := Int.emod_def (v + 2 ^ (t.bits - 1)) (2 ^ t.bits)
  refine ⟨-((v + 2 ^ (t.bits - 1)) / 2 ^ t.bits), ?_⟩
  rw [h]
  ring

theorem eq_of_InRange_of_dvd {t : ScalarType} (ht : t.kind = TypeKind.Int) {a b : Int}
    (ha : InRange t a) (hb : InRange t b) (hdvd : (2:Int) ^ t.bits ∣ a - b) : a = b := by
  obtain ⟨hbits, hra⟩ := ha
  obtain ⟨_, hrb⟩ := hb
  simp only [ht] at hra hrb
  have hpow : (2:Int) ^ t.bits = 2 * 2 ^ (t.bits - 1) := by
    obtain ⟨n, hn⟩ : ∃ n, t.bits = n + 1 := ⟨t.bits - 1, by omega⟩
    rw [hn]; simp [pow_succ]; ring
  have habs : |a - b| < 2 ^ t.bits := by
    rw [abs_lt]
    constructor <;> omega
  have hzero := Int.eq_zero_of_abs_lt_dvd hdvd habs
  omega

theorem intBinary_ExactResult (k : BinaryKind) (x y : Int)
    (hd : k.divides = true → y ≠ 0) : ExactResult k x y (intBinary k x y) := by
  cases k
  case Add => rfl
  case Sub => rfl
  case Mul => rfl
  case Div =>
    obtain ⟨h1, h2, h3⟩ := tmod_sign_and_size x y (hd rfl)
    exact ⟨x.tmod y, (Int.tdiv_add_tmod x y).symm, h1, h2, h3⟩
  case Mod =>
    obtain ⟨h1, h2, h3⟩ := tmod_sign_and_size x y (hd rfl)
    exact ⟨x.tdiv y, (Int.tdiv_add_tmod x y).symm, h1, h2, h3⟩
  case Min =>
    simp only [ExactResult, intBinary]
    split <;> refine ⟨?_, ?_, ?_⟩ <;> omega
  case Max =>
    simp only [ExactResult, intBinary]
    split <;> refine ⟨?_, ?_, ?_⟩ <;> omega

theorem truncated_division_unique {x y q r q' r' : Int} (hy : y ≠ 0)
    (h : x = y * q + r) (hr : |r| < |y|) (hp : 0 ≤ x → 0 ≤ r) (hn : x ≤ 0 → r ≤ 0)
    (h' : x = y * q' + r') (hr' : |r'| < |y|) (hp' : 0 ≤ x → 0 ≤ r')
    (hn' : x ≤ 0 → r' ≤ 0) : q' = q ∧ r' = r := by
  have hdvd : |y| ∣ r' - r := by
    rw [abs_dvd]
    exact ⟨q - q', by rw [mul_sub]; omega⟩
  have hsmall : |r' - r| < |y| := by
    rw [abs_lt] at hr hr' ⊢
    rcases le_total 0 x with hx | hx
    · have := hp hx
      have := hp' hx
      constructor <;> omega
    · have := hn hx
      have := hn' hx
      constructor <;> omega
  have hzero := Int.eq_zero_of_abs_lt_dvd hdvd hsmall
  have hrr : r' = r := by omega
  refine ⟨?_, hrr⟩
  have hmul : y * (q' - q) = 0 := by rw [mul_sub]; omega
  rcases mul_eq_zero.mp hmul with h0 | h0
  · exact absurd h0 hy
  · omega

theorem ExactResult_unique (k : BinaryKind) (x y : Int) (hd : k.divides = true → y ≠ 0)
    {e e' : Int} (he : ExactResult k x y e) (he' : ExactResult k x y e') : e' = e := by
  cases k
  case Add => simp only [ExactResult] at he he'; omega
  case Sub => simp only [ExactResult] at he he'; omega
  case Mul => simp only [ExactResult] at he he'; rw [he, he']
  case Div =>
    obtain ⟨r, h1, h2, h3, h4⟩ := he
    obtain ⟨r', h1', h2', h3', h4'⟩ := he'
    exact (truncated_division_unique (hd rfl) h1 h2 h3 h4 h1' h2' h3' h4').1
  case Mod =>
    obtain ⟨q, h1, h2, h3, h4⟩ := he
    obtain ⟨q', h1', h2', h3', h4'⟩ := he'
    exact (truncated_division_unique (hd rfl) h1 h2 h3 h4 h1' h2' h3' h4').2
  case Min => simp only [ExactResult] at he he'; omega
  case Max => simp only [ExactResult] at he he'; omega

theorem tdiv_InRange {t : ScalarType} (ht : t.kind = TypeKind.Int) {x y : Int}
    (hx : InRange t x) (hy0 : y ≠ 0)
    (hover : ¬ (x = -(2 ^ (t.bits - 1)) ∧ y = -1)) : InRange t (x.tdiv y) := by
  obtain ⟨hb, hrx⟩ := hx
  simp only [ht] at hrx
  refine ⟨hb, ?_⟩
  simp only [ht]
  have hpos : (0:Int) < 2 ^ (t.bits - 1) := by positivity
  by_cases h1 : y = 1
  · subst h1
    rw [Int.tdiv_one]
    exact hrx
  by_cases h2 : y = -1
  · subst h2
    rw [Int.tdiv_neg, Int.tdiv_one]
    have : x ≠ -(2 ^ (t.bits - 1)) := fun h => hover ⟨h, rfl⟩
    constructor <;> omega
  · have hnat : (x.tdiv y).natAbs = x.natAbs / y.natAbs := Int.natAbs_tdiv x y
    have hy2 : 2 ≤ y.natAbs := by omega
    have hle : x.natAbs / y.natAbs ≤ x.natAbs / 2 :=
      Nat.div_le_div_left hy2 (by decide)
    have hhalf : x.natAbs / 2 ≤ x.natAbs := Nat.div_le_self _ _
    have hxa : (x.natAbs : Int) ≤ 2 ^ (t.bits - 1) := by omega
    have hq : ((x.tdiv y).natAbs : Int) ≤ (x.natAbs : Int) / 2 := by
      rw [hnat]
      exact_mod_cast hle
    constructor <;> omega

/-- C9: for two integer immediates of a signed integer type `T` (int32 and int64 among
them), `Add`, `Sub`, `Mul`, `Div`, `Mod`, `Min` or `Max` (the divisor of `Div` and `Mod` not
zero) is generated as a constant of type `T` whose value `v` is a value of `T` and is the
exact result `e` of the operation in `T`: `e` is the one integer the specification's
operation yields (sum, difference, product, quotient truncated toward zero and its
remainder, minimum, maximum), `v` and `e` differ by a multiple of `2 ^ bits`, and `v = e`
whenever `e` is a value of `T`, as it always is for `Min`, `Max` and `Mod` and for `Div`
except for the least value of `T` divided by `-1`. -/
theorem Visit_Binary_int_immediates (rnd : Nat → ℚ → ℚ) (k : BinaryKind) (t : ScalarType)
    (x y : Int) (ht : t.kind = TypeKind.Int) (hx : InRange t x) (hy : InRange t y)
    (hd : k.divides = true → y ≠ 0) :
    ∃ v e : Int,
      Visit rnd (Expression.Binary k t (Expression.IntImm t x) (Expression.IntImm t y))
        = Except.ok (Constant.int t v) ∧
      InRange t v ∧
      ExactResult k x y e ∧
      (∀ e', ExactResult k x y e' → e' = e) ∧
      (2:Int) ^ t.bits ∣ v - e ∧
      (InRange t e → v = e) ∧
      (k = BinaryKind.Min ∨ k = BinaryKind.Max ∨ k = BinaryKind.Mod → v = e) ∧
      (k = BinaryKind.Div → ¬ (x = -(2 ^ (t.bits - 1)) ∧ y = -1) → v = e) := by
  have hv : Visit rnd (Expression.Binary k t (Expression.IntImm t x) (Expression.IntImm t y))
      = Except.ok (Constant.int t (wrap t (intBinary k x y))) := by
    have hz : ¬ (k.divides = true ∧ y = 0) := fun h => hd h.1 h.2
    simp [Visit, ht, wrap_of_InRange hx, wrap_of_InRange hy, hz]
  have hin := wrap_InRange ht hx.1 (intBinary k x y)
  have hdvd := wrap_dvd_sub ht (intBinary k x y)
  have hfit : InRange t (intBinary k x y) → wrap t (intBinary k x y) = intBinary k x y :=
    fun h => eq_of_InRange_of_dvd ht hin h hdvd
  refine ⟨wrap t (intBinary k x y), intBinary k x y, hv, hin, intBinary_ExactResult k x y hd,
    fun e' he' => ExactResult_unique k x y hd (intBinary_ExactResult k x y hd) he', hdvd,
    hfit, ?_, ?_⟩
  · rintro (hk | hk | hk)
    · subst hk
      apply hfit
      apply InRange_of_between hx hy <;> simp only [intBinary] <;> split <;> simp [*]
    · subst hk
      apply hfit
      apply InRange_of_between hx hy <;> simp only [intBinary] <;> split <;> simp [*]
    · subst hk
      apply hfit
      obtain ⟨h1, -, -⟩ := tmod_sign_and_size x y (hd rfl)
      obtain ⟨hb, hry⟩ := hy
      simp only [ht] at hry
      refine ⟨hb, ?_⟩
      simp only [ht, intBinary]
      have hlt := abs_lt.mp h1
      rcases abs_cases y with ⟨hay, _⟩ | ⟨hay, _⟩ <;> rw [hay] at hlt <;> constructor <;> omega
  · intro hk hover
    subst hk
    exact hfit (tdiv_InRange ht hx (hd rfl) hover)

/-- Witness of C9: the integer operations of the test `CodeGenLLVM.Expr`: `Mod(25, 7)`,
`Add(2, 3)` and `Min(2, 3)` in int32 and `Mul(5, 3)` in int64 are generated as the constants
4, 5, 2 and 15 of their type; and `Add(2147483647, 1)` in int32 as a value of int32 that
differs from the sum by a multiple of `2 ^ 32`. -/
theorem Visit_Binary_int_immediates_witness :
    (ScalarType.int 32).kind = TypeKind.Int ∧ InRange (ScalarType.int 32) 25 ∧
      InRange (ScalarType.int 32) 7 ∧
      Visit (fun _ q => q) (Expression.Binary BinaryKind.Mod (ScalarType.int 32)
          (Expression.IntImm (ScalarType.int 32) 25) (Expression.IntImm (ScalarType.int 32) 7))
        = Except.ok (Constant.int (ScalarType.int 32) 4) ∧
      Visit (fun _ q => q) (Expression.Binary BinaryKind.Add (ScalarType.int 32)
          (Expression.IntImm (ScalarType.int 32) 2) (Expression.IntImm (ScalarType.int 32) 3))
        = Except.ok (Constant.int (ScalarType.int 32) 5) ∧
      Visit (fun _ q => q) (Expression.Binary BinaryKind.Mul (ScalarType.int 64)
          (Expression.IntImm (ScalarType.int 64) 5) (Expression.IntImm (ScalarType.int 64) 3))
        = Except.ok (Constant.int (ScalarType.int 64) 15) ∧
      Visit (fun _ q => q) (Expression.Binary BinaryKind.Min (ScalarType.int 32)
          (Expression.IntImm (ScalarType.int 32) 2) (Expression.IntImm (ScalarType.int 32) 3))
        = Except.ok (Constant.int (ScalarType.int 32) 2) ∧
      (∃ v e : Int,
        Visit (fun _ q => q) (Expression.Binary BinaryKind.Add (ScalarType.int 32)
            (Expression.IntImm (ScalarType.int 32) 2147483647)
            (Expression.IntImm (ScalarType.int 32) 1))
          = Except.ok (Constant.int (ScalarType.int 32) v) ∧
        InRange (ScalarType.int 32) v ∧ e = 2147483648 ∧ (2:Int) ^ 32 ∣ v - e) := by
  refine ⟨rfl, by decide, by decide, ?_, ?_, ?_, ?_, ?_⟩
  · obtain ⟨v, e, hv, -, -, huniq, -, -, hexact, -⟩ :=
      Visit_Binary_int_immediates (fun _ q => q) BinaryKind.Mod (ScalarType.int 32) 25 7 rfl
        (by decide) (by decide) (by decide)
    have he : (4:Int) = e := huniq 4 ⟨3, by decide, by decide, by decide, by decide⟩
    have hve : v = e := hexact (Or.inr (Or.inr rfl))
    rw [hv, hve, ← he]
  · obtain ⟨v, e, hv, -, -, huniq, -, hfit, -, -⟩ :=
      Visit_Binary_int_immediates (fun _ q => q) BinaryKind.Add (ScalarType.int 32) 2 3 rfl
        (by decide) (by decide) (by decide)
    have he : (5:Int) = e := huniq 5 rfl
    have hve : v = e := hfit (he ▸ by decide)
    rw [hv, hve, ← he]
  · obtain ⟨v, e, hv, -, -, huniq, -, hfit, -, -⟩ :=
      Visit_Binary_int_immediates (fun _ q => q) BinaryKind.Mul (ScalarType.int 64) 5 3 rfl
        (by decide) (by decide) (by decide)
    have he : (15:Int) = e := huniq 15 rfl
    have hve : v = e := hfit (he ▸ by decide)
    rw [hv, hve, ← he]
  · obtain ⟨v, e, hv, -, -, huniq, -, -, hexact, -⟩ :=
      Visit_Binary_int_immediates (fun _ q => q) BinaryKind.Min (ScalarType.int 32) 2 3 rfl
        (by decide) (by decide) (by decide)
    have he : (2:Int) = e := huniq 2 ⟨by decide, by decide, Or.inl rfl⟩
    have hve : v = e := hexact (Or.inl rfl)
    rw [hv, hve, ← he]
  · obtain ⟨v, e, hv, hin, hex, -, hdvd, -, -, -⟩ :=
      Visit_Binary_int_immediates (fun _ q => q) BinaryKind.Add (ScalarType.int 32)
        2147483647 1 rfl (by decide) (by decide) (by decide)
    exact ⟨v, e, hv, hin, hex, hdvd⟩

end backends

/-! ## The variable bookkeeping of the frontend -/

namespace frontend

theorem VarMap.find_assign_self (m : VarMap) (name : String) (var : Variable) :
    (m.assign name var).find name = some var := by
  simp [VarMap.find, VarMap.assign, List.lookup]

theorem lookup_filter_ne (m : VarMap) {name k : String} (hk : k ≠ name) :
    List.lookup k (m.filter (fun p => p.1 != name)) = List.lookup k m := by
  induction m with
  | nil => rfl
  | cons hd tl ih =>
    obtain ⟨a, b⟩ := hd
    by_cases ha : a = name
    · subst ha
      have hka : (k == a) = false := by simpa using hk
      simp [List.filter, List.lookup, hka, ih]
    · have hne : (a != name) = true := by simpa using ha
      simp only [List.filter, hne, List.lookup]
      rw [ih]

theorem VarMap.find_assign_ne (m : VarMap) {name k : String} (var : Variable)
    (hk : k ≠ name) : (m.assign name var).find k = m.find k := by
  have hkn : (k == name) = false := by simpa using hk
  simp only [VarMap.find, VarMap.assign, List.lookup, hkn]
  exact lookup_filter_ne m hk

theorem VarMap.count_ne_zero_iff (m : VarMap) (name : String) :
    m.count name ≠ 0 ↔ (m.find name).isSome = true := by
  unfold VarMap.count
  split <;> simp [*]

/-- C11: with a name that passes `CheckVarNameValid`, `AddVar` ends fatally exactly when
`replace` is false and the normalized name is already a key of the variable map; a fatal
end leaves the map as it was, and otherwise the map binds the normalized name to `var` and
every other key as before. -/
theorem AddVar_fatal_iff (H : NameHelpers) (ctx : OpMapperContext) (origin_name : String)
    (var : Variable) (replace : Bool)
    (hvalid : H.CheckVarNameValid (H.TransValidVarName origin_name) = true) :
    ((ctx.AddVar H origin_name var replace).isFatal = true ↔
        (replace = false ∧
          (ctx.var_map_.find (H.TransValidVarName origin_name)).isSome = true)) ∧
      ((ctx.AddVar H origin_name var replace).isFatal = true →
        (ctx.AddVar H origin_name var replace).var_map = ctx.var_map_) ∧
      ((ctx.AddVar H origin_name var replace).isFatal = false →
        (ctx.AddVar H origin_name var replace).var_map.find (H.TransValidVarName origin_name)
            = some var ∧
          ∀ k, k ≠ H.TransValidVarName origin_name →
            (ctx.AddVar H origin_name var replace).var_map.find k = ctx.var_map_.find k) := by
  by_cases hc : replace = false ∧ ctx.var_map_.count (H.TransValidVarName origin_name) ≠ 0
  · have hout : ctx.AddVar H origin_name var replace = Outcome.fatal ctx.var_map_ := by
      simp only [OpMapperContext.AddVar, hvalid]
      simp [hc]
    rw [hout]
    refine ⟨?_, fun _ => rfl, ?_⟩
    · simp only [Outcome.isFatal, true_iff]
      exact ⟨hc.1, (VarMap.count_ne_zero_iff _ _).mp hc.2⟩
    · intro h
      simp [Outcome.isFatal] at h
  · have hout : ctx.AddVar H origin_name var replace
        = Outcome.ok () (ctx.var_map_.assign (H.TransValidVarName origin_name) var) := by
      simp only [OpMapperContext.AddVar, hvalid]
      simp [hc]
    rw [hout]
    refine ⟨?_, ?_, ?_⟩
    · simp only [Outcome.isFatal, Bool.false_eq_true, false_iff]
      intro h
      exact hc ⟨h.1, (VarMap.count_ne_zero_iff _ _).mpr h.2⟩
    · intro h
      simp [Outcome.isFatal] at h
    · intro _
      exact ⟨VarMap.find_assign_self _ _ _, fun k hk => VarMap.find_assign_ne _ _ hk⟩

/-- Witness of C11: adding under the key `x`, which the map already has, without
`replace`. -/
theorem AddVar_fatal_iff_witness :
    demoHelpers.CheckVarNameValid (demoHelpers.TransValidVarName "x") = true ∧
      (demoContext.AddVar demoHelpers "x" (demoVariable "y") false).isFatal = true ∧
      (demoContext.AddVar demoHelpers "x" (demoVariable "y") false).var_map
        = demoContext.var_map_ ∧
      (demoContext.AddVar demoHelpers "x" (demoVariable "y") true).var_map.find "x"
        = some (demoVariable "y") :=
  ⟨by decide,
   (AddVar_fatal_iff demoHelpers demoContext "x" (demoVariable "y") false (by decide)).1.mpr
     (by decide),
   (AddVar_fatal_iff demoHelpers demoContext "x" (demoVariable "y") false (by decide)).2.1
     (by decide),
   ((AddVar_fatal_iff demoHelpers demoContext "x" (demoVariable "y") true (by decide)).2.2
     (by decide)).1⟩

/-- C12: after `AddVar(origin_name, v, replace)` has succeeded, `GetVar(origin_name)`
returns `v` and leaves the variable map as it is, whatever the scope holds. -/
theorem AddVar_GetVar_roundtrip (H : NameHelpers) (ctx : OpMapperContext)
    (origin_name : String) (v : Variable) (replace : Bool) (m : VarMap) (scope : Scope)
    (hok : ctx.AddVar H origin_name v replace = Outcome.ok () m) :
    OpMapperContext.GetVar H ⟨scope, m⟩ origin_name = Outcome.ok v m := by
  unfold OpMapperContext.AddVar at hok
  by_cases hvalid : H.CheckVarNameValid (H.TransValidVarName origin_name) = true
  · simp only [hvalid, Bool.true_eq_false, ↓reduceIte] at hok
    split at hok
    · cases hok
    · simp only [Outcome.ok.injEq, true_and] at hok
      subst hok
      simp only [OpMapperContext.GetVar, hvalid, Bool.true_eq_false, ↓reduceIte,
        VarMap.find_assign_self]
  · simp only [Bool.not_eq_true] at hvalid
    simp [hvalid] at hok

/-- Witness of C12: a variable added under `a.b` is found again under `a.b`, in a context
whose scope is empty. -/
theorem AddVar_GetVar_roundtrip_witness :
    demoContext.AddVar demoHelpers "a.b" (demoVariable "y") false
        = Outcome.ok () [("a__b", demoVariable "y"), ("x", demoVariable "x")] ∧
      OpMapperContext.GetVar demoHelpers
          ⟨⟨[]⟩, [("a__b", demoVariable "y"), ("x", demoVariable "x")]⟩ "a.b"
        = Outcome.ok (demoVariable "y") [("a__b", demoVariable "y"), ("x", demoVariable "x")] :=
  ⟨by decide,
   AddVar_GetVar_roundtrip demoHelpers demoContext "a.b" (demoVariable "y") false
     [("a__b", demoVariable "y"), ("x", demoVariable "x")] ⟨[]⟩ (by decide)⟩

end frontend

end cinn
